import Mathlib

/-!
A shallow embedding of the sparse Game of Life engine in `src/main.c`
(GameOfLifeGpt).  C `int` coordinates are modelled as `Int`, C `uint64_t`
arithmetic as `Nat` reduced modulo `2 ^ 64`, the chained hash tables as
lists of buckets (each bucket the list of nodes from chain head to tail),
and the pattern file as an optional list of lines (`none` models a file
that could not be opened, `some lines` the sequence of lines `getline`
would deliver; a line is its raw character content).
-/

/-- 2 ^ 64, the modulus of C `uint64_t` arithmetic. -/
def U64 : Nat := 18446744073709551616

/-- `(uint32_t)x` for a C `int x`: the value of `x` modulo `2 ^ 32`. -/
def toU32 (x : Int) : Nat := (x % 4294967296).toNat

/-- `mix64` from main.c: the 64-bit avalanche finalizer
`x ^= x >> 33; x *= 0xff51afd7ed558ccd; x ^= x >> 33; x *= 0xc4ceb9fe1a85ec53; x ^= x >> 33`. -/
def mix64 (x : Nat) : Nat :=
  let a := x ^^^ (x >>> 33)
  let b := (a * 0xff51afd7ed558ccd) % U64
  let c := b ^^^ (b >>> 33)
  let d := (c * 0xc4ceb9fe1a85ec53) % U64
  d ^^^ (d >>> 33)

/-- The 64-bit key `((uint64_t)(uint32_t)x << 32) ^ (uint32_t)y` built by
`cell_hash`, `cell_set_expand` and `count_hash` in main.c. -/
def cellKey (x y : Int) : Nat := ((toU32 x) <<< 32) ^^^ (toU32 y)

/-- `cell_hash` from main.c: mix the key and reduce modulo the capacity. -/
def cell_hash (capacity : Nat) (x y : Int) : Nat := mix64 (cellKey x y) % capacity

/-- `count_hash` from main.c (same formula as `cell_hash`, on the count map). -/
def count_hash (capacity : Nat) (x y : Int) : Nat := mix64 (cellKey x y) % capacity

/-- `struct cell_set` from main.c: chained hash buckets of live `(x, y)`
coordinates plus the tracked `size`.  `buckets.length` plays the role of the
`capacity` field (the C code keeps `capacity` equal to the length of the
allocated bucket array). -/
structure cell_set where
  buckets : List (List (Int × Int))
  size : Nat

/-- `cell_set_init` from main.c: `capacity` empty buckets, size 0. -/
def cell_set_init (capacity : Nat) : cell_set :=
  ⟨List.replicate capacity [], 0⟩

/-- The chain walk of `cell_set_contains`: does the chain hold `(x, y)`? -/
def bucket_find (x y : Int) (chain : List (Int × Int)) : Bool :=
  chain.any (fun p => p.1 == x && p.2 == y)

/-- `cell_set_contains` from main.c: look only in the bucket the hash selects.
(With capacity 0 the lookup finds nothing, like the `!set->buckets` guard.) -/
def cell_set_contains (s : cell_set) (x y : Int) : Bool :=
  bucket_find x y (s.buckets.getD (cell_hash s.buckets.length x y) [])

/-- Prepending a node to the bucket its hash selects — the common insertion
move of `cell_set_insert` and the relocation loop of `cell_set_expand`. -/
def table_push (bs : List (List (Int × Int))) (p : Int × Int) :
    List (List (Int × Int)) :=
  let i := cell_hash bs.length p.1 p.2
  bs.set i (p :: bs.getD i [])

/-- `cell_set_expand` from main.c: double the capacity (2048 from capacity 0)
and rehash every node.  The C code walks buckets in index order and each chain
head to tail, pushing each node into the new table — exactly a left fold of
`table_push` over the flattened bucket list. -/
def cell_set_expand (s : cell_set) : cell_set :=
  let newCap := if s.buckets.length = 0 then 2048 else s.buckets.length * 2
  ⟨s.buckets.flatten.foldl table_push (List.replicate newCap []), s.size⟩

/-- `cell_set_insert` from main.c: no-op when present; otherwise grow when
`(size + 1) * 2 > capacity`, then push the new node and bump `size`. -/
def cell_set_insert (s : cell_set) (x y : Int) : cell_set :=
  if cell_set_contains s x y then s
  else
    let s1 := if s.buckets.length < (s.size + 1) * 2 then cell_set_expand s else s
    ⟨table_push s1.buckets (x, y), s1.size + 1⟩

/-- `cell_set_clear` from main.c: drop every chain, keep the capacity. -/
def cell_set_clear (s : cell_set) : cell_set :=
  ⟨List.replicate s.buckets.length [], 0⟩

/-- `cell_set_count` from main.c. -/
def cell_set_count (s : cell_set) : Nat := s.size

/-- The coordinates the iterator `cell_set_iter`/`cell_iter_next` of main.c
visits, in its order: buckets by ascending index, each chain head to tail. -/
def cell_set_entries (s : cell_set) : List (Int × Int) :=
  s.buckets.flatten

/-- `struct count_map` from main.c: chained hash buckets of
`(x, y, count)` entries. -/
structure count_map where
  buckets : List (List (Int × Int × Nat))

/-- `count_map_init` from main.c. -/
def count_map_init (capacity : Nat) : count_map :=
  ⟨List.replicate capacity []⟩

/-- Does the chain hold an entry keyed `(x, y)`?  (The search loop of
`count_map_get`.) -/
def chain_has (x y : Int) (chain : List (Int × Int × Nat)) : Bool :=
  chain.any (fun e => e.1 == x && e.2.1 == y)

/-- Add one to the first entry keyed `(x, y)` of the chain, in place. -/
def chain_bump (x y : Int) : List (Int × Int × Nat) → List (Int × Int × Nat)
  | [] => []
  | e :: rest =>
      if e.1 == x && e.2.1 == y then (x, y, e.2.2 + 1) :: rest
      else e :: chain_bump x y rest

/-- `count_map_increment` from main.c (`count_map_get` then `+= 1`): bump the
existing entry, or prepend a fresh entry with count `0 + 1 = 1`. -/
def count_map_increment (m : count_map) (x y : Int) : count_map :=
  let i := count_hash m.buckets.length x y
  let chain := m.buckets.getD i []
  let chain' := if chain_has x y chain then chain_bump x y chain else (x, y, 1) :: chain
  ⟨m.buckets.set i chain'⟩

/-- The count the chain records for `(x, y)` (0 when no entry exists). -/
def chain_count (x y : Int) (chain : List (Int × Int × Nat)) : Nat :=
  match chain.find? (fun e => e.1 == x && e.2.1 == y) with
  | some e => e.2.2
  | none => 0

/-- The count recorded for `(x, y)` (0 when no entry exists): the value
`count_map_get` would expose without creating an entry. -/
def count_map_get_count (m : count_map) (x y : Int) : Nat :=
  chain_count x y (m.buckets.getD (count_hash m.buckets.length x y) [])

/-- The Moore-neighborhood offsets `(dx, dy)` in the order the nested loops of
`life_state_step` visit them (`dy` outer, `dx` inner, `(0,0)` skipped). -/
def mooreOffsets : List (Int × Int) :=
  [(-1, -1), (0, -1), (1, -1), (-1, 0), (1, 0), (-1, 1), (0, 1), (1, 1)]

/-- The eight increments one live cell `p` performs in `life_state_step`. -/
def neighbor_increments (m : count_map) (p : Int × Int) : count_map :=
  mooreOffsets.foldl (fun acc d => count_map_increment acc (p.1 + d.1) (p.2 + d.2)) m

/-- The neighbor-counting phase of `life_state_step`: every live coordinate,
in iterator order, increments its eight Moore neighbors in a count map of
fixed capacity `COUNT_HASH_CAPACITY = 4096`. -/
def step_counts (l : List (Int × Int)) : count_map :=
  l.foldl neighbor_increments (count_map_init 4096)

/-- `struct life_state` from main.c. -/
structure life_state where
  live : cell_set
  generation : Nat

/-- `life_state_init` from main.c (`INITIAL_HASH_CAPACITY = 2048`). -/
def life_state_init : life_state :=
  ⟨cell_set_init 2048, 0⟩

/-- `life_state_clear` from main.c. -/
def life_state_clear (st : life_state) : life_state :=
  ⟨cell_set_clear st.live, 0⟩

/-- The survival test of `life_state_step`:
`entry->count == 3 || (alive && entry->count == 2)`. -/
def life_rule (live : cell_set) (e : Int × Int × Nat) : Bool :=
  e.2.2 == 3 || (cell_set_contains live e.1 e.2.1 && e.2.2 == 2)

/-- `life_state_step` from main.c: count neighbors of the live set, build a
fresh set (initial capacity = the live set's capacity) from the count-map
entries that pass the rule — walking count buckets in index order, chains
head to tail — swap it in and bump the generation. -/
def life_state_step (st : life_state) : life_state :=
  let counts := step_counts (cell_set_entries st.live)
  let next := counts.buckets.flatten.foldl
    (fun ns e => if life_rule st.live e then cell_set_insert ns e.1 e.2.1 else ns)
    (cell_set_init st.live.buckets.length)
  ⟨next, st.generation + 1⟩

/-- The comment test of `life_state_import_file`:
`read > 0 && (line[0] == '!' || line[0] == '#')`. -/
def is_comment (line : List Char) : Bool :=
  match line with
  | [] => false
  | c :: _ => c == '!' || c == '#'

/-- Is the character one of the live markers `O`, `o`, `X`, `1`? -/
def is_live_char (c : Char) : Bool :=
  c == 'O' || c == 'o' || c == 'X' || c == '1'

/-- The inner column loop of `life_state_import_file`: scan the line left to
right, stop at the first `'\n'` or `'\r'`, insert a live cell at `(x, y)` for
every live marker, ignore every other character. -/
def load_row (s : cell_set) (cs : List Char) (x y : Int) : cell_set :=
  match cs with
  | [] => s
  | c :: rest =>
      if c == '\n' || c == '\r' then s
      else load_row (if is_live_char c then cell_set_insert s x y else s) rest (x + 1) y

/-- The line loop of `life_state_import_file`: comment lines are skipped and
do not advance the row index `y`; every other line is scanned at row `y` and
then `y` advances. -/
def load_lines (s : cell_set) : List (List Char) → Int → cell_set
  | [], _ => s
  | line :: rest, y =>
      if is_comment line then load_lines s rest y
      else load_lines (load_row s line 0 y) rest (y + 1)

/-- `life_state_import_file` from main.c.  `none` models a path `fopen`
rejects: the function returns `-1` before touching the state.  `some lines`
models a readable file: the state is cleared (generation reset to 0) and the
lines are loaded from row 0; the return value is 0. -/
def life_state_import_file (st : life_state) (src : Option (List (List Char))) :
    Int × life_state :=
  match src with
  | none => (-1, st)
  | some lines => (0, ⟨load_lines (cell_set_clear st.live) lines 0, 0⟩)

/-- `struct view_state` from main.c. -/
structure view_state where
  center_x : Int
  center_y : Int
  scale : Int

/-- `view_init` from main.c (also the `r` reset command). -/
def view_init : view_state := ⟨0, 0, 1⟩

/-- `view_zoom_in` from main.c: `scale = MAX(1, scale / 2)` (C integer
division truncates, hence `Int.tdiv`). -/
def view_zoom_in (v : view_state) : view_state :=
  { v with scale := max 1 (v.scale.tdiv 2) }

/-- `view_zoom_out` from main.c: double the scale while it is below 1024. -/
def view_zoom_out (v : view_state) : view_state :=
  if v.scale < 1024 then { v with scale := v.scale * 2 } else v

/-- `view_pan` from main.c: move the center by `d * scale` on each axis. -/
def view_pan (v : view_state) (dx dy : Int) : view_state :=
  { v with center_x := v.center_x + dx * v.scale,
           center_y := v.center_y + dy * v.scale }

/-- The viewport commands the driver loops can issue. -/
inductive view_op where
  | zoom_in
  | zoom_out
  | pan (dx dy : Int)
  | reset

/-- Run one viewport command. -/
def apply_op (v : view_state) : view_op → view_state
  | .zoom_in => view_zoom_in v
  | .zoom_out => view_zoom_out v
  | .pan dx dy => view_pan v dx dy
  | .reset => view_init

/-- Run a sequence of viewport commands. -/
def apply_ops (v : view_state) (l : List view_op) : view_state :=
  l.foldl apply_op v

/-- Well-formedness of a `cell_set`, as the C code maintains it: a positive
capacity, every node chained in the bucket its hash selects, no duplicate
coordinates, and `size` equal to the number of nodes. -/
structure SetWF (s : cell_set) : Prop where
  cap_pos : 0 < s.buckets.length
  hash_ok : ∀ i p, p ∈ s.buckets.getD i [] → cell_hash s.buckets.length p.1 p.2 = i
  nodup : (cell_set_entries s).Nodup
  size_ok : s.size = (cell_set_entries s).length

/-- Well-formedness of a `count_map`: positive capacity, every entry chained
in the bucket its hash selects, no duplicate keys, every count positive
(entries are only ever created by an increment). -/
structure MapWF (m : count_map) : Prop where
  cap_pos : 0 < m.buckets.length
  hash_ok : ∀ i e, e ∈ m.buckets.getD i [] → count_hash m.buckets.length e.1 e.2.1 = i
  keys_nodup : (m.buckets.flatten.map (fun e => (e.1, e.2.1))).Nodup
  pos : ∀ e ∈ m.buckets.flatten, 1 ≤ e.2.2

/-- Is `p` one of the eight Moore neighbors of `c`? -/
def is_moore_neighbor (p c : Int × Int) : Bool :=
  mooreOffsets.contains (c.1 - p.1, c.2 - p.2)

/-- The number of live cells among the eight Moore neighbors of `(x, y)` —
one per live neighbor, since a well-formed set has no duplicates. -/
def live_neighbor_count (s : cell_set) (x y : Int) : Nat :=
  (cell_set_entries s).countP (fun p => is_moore_neighbor p (x, y))

/-- The live coordinates of a `cell_set`, as a finite set. -/
def entries_finset (s : cell_set) : Finset (Int × Int) :=
  (cell_set_entries s).toFinset

/-- Moore-neighbor count of `c` over an abstract live set. -/
def neighbor_finset_count (S : Finset (Int × Int)) (c : Int × Int) : Nat :=
  (S.filter (fun p => is_moore_neighbor p c = true)).card

/-- One generation of Conway's rule on an abstract live set: candidates are
the Moore neighbors of live cells; a candidate survives with neighbor count 3,
or count 2 when already alive. -/
def nextGen (S : Finset (Int × Int)) : Finset (Int × Int) :=
  (S.biUnion (fun p => (mooreOffsets.map (fun d => (p.1 + d.1, p.2 + d.2))).toFinset)).filter
    (fun c => neighbor_finset_count S c = 3 ∨ (neighbor_finset_count S c = 2 ∧ c ∈ S))

/-- The part of a pattern line the loader scans: everything before the first
`'\n'` or `'\r'`. -/
def row_scan (cs : List Char) : List Char :=
  cs.takeWhile (fun c => !(c == '\n' || c == '\r'))

/-- The column indices of the live markers in the scanned part of a line. -/
def row_live_cols (cs : List Char) : List Nat :=
  (List.range (row_scan cs).length).filter
    (fun i => is_live_char ((row_scan cs).getD i ' '))

/-- The cells a pattern text describes: comment lines are dropped, the
remaining lines get row indices `y = 0, 1, 2, …` in order, and each
contributes its live-marker columns as `x`. -/
def pattern_cells (lines : List (List Char)) : List (Int × Int) :=
  let rows := lines.filter (fun l => !is_comment l)
  (List.range rows.length).flatMap
    (fun j => (row_live_cols (rows.getD j [])).map (fun (i : Nat) => ((i : Int), (j : Int))))

/-- The glider pattern `.O./..O/OOO` of the spec. -/
def gliderLines : List (List Char) :=
  [['.', 'O', '.'], ['.', '.', 'O'], ['O', 'O', 'O']]

/-! ### Generic facts about bucket tables (lists of chains) -/

theorem getD_eq_getElem {α : Type _} (l : List α) (i : Nat) (d : α) (h : i < l.length) :
    l.getD i d = l[i] := by
  rw [List.getD_eq_getElem?_getD, List.getElem?_eq_getElem h]
  rfl

theorem getD_of_length_le {α : Type _} (l : List α) (i : Nat) (d : α)
    (h : l.length ≤ i) : l.getD i d = d := by
  rw [List.getD_eq_getElem?_getD, List.getElem?_eq_none h]
  rfl

theorem mem_of_getD {α : Type _} (bs : List (List α)) (i : Nat) (p : α)
    (h : p ∈ bs.getD i []) : p ∈ bs.flatten := by
  by_cases hi : i < bs.length
  · rw [List.mem_flatten]
    exact ⟨bs.getD i [], by rw [getD_eq_getElem _ _ _ hi]; exact bs.getElem_mem hi, h⟩
  · rw [getD_of_length_le _ _ _ (Nat.le_of_not_lt hi)] at h
    simp at h

theorem mem_flatten_iff_getD {α : Type _} (bs : List (List α)) (p : α) :
    p ∈ bs.flatten ↔ ∃ i, p ∈ bs.getD i [] := by
  constructor
  · intro hp
    rw [List.mem_flatten] at hp
    obtain ⟨l, hl, hpl⟩ := hp
    obtain ⟨i, hi, hil⟩ := List.mem_iff_getElem.mp hl
    exact ⟨i, by rw [getD_eq_getElem _ _ _ hi, hil]; exact hpl⟩
  · rintro ⟨i, hi⟩
    exact mem_of_getD bs i p hi

theorem flatten_set_perm {α : Type _} (bs : List (List α)) (i : Nat) (a : α)
    (h : i < bs.length) :
    ((bs.set i (a :: bs.getD i [])).flatten).Perm (a :: bs.flatten) := by
  induction bs generalizing i with
  | nil => simp at h
  | cons b bs ih =>
    cases i with
    | zero => simp
    | succ j =>
      simp only [List.set_cons_succ, List.flatten_cons, List.getD_cons_succ]
      have hj : j < bs.length := by simpa using h
      exact ((ih j hj).append_left b).trans List.perm_middle

theorem flatten_replicate_nil {α : Type _} (n : Nat) :
    (List.replicate n ([] : List α)).flatten = [] := by
  induction n with
  | zero => rfl
  | succ k ihk => simp [List.replicate_succ, ihk]

theorem getD_replicate_nil {α : Type _} (n i : Nat) :
    (List.replicate n ([] : List α)).getD i [] = [] := by
  by_cases h : i < n
  · rw [getD_eq_getElem _ _ _ (by simpa using h)]
    simp
  · rw [getD_of_length_le _ _ _ (by simpa using Nat.le_of_not_lt h)]

theorem getD_set_self {α : Type _} (l : List α) (i : Nat) (a d : α) (h : i < l.length) :
    (l.set i a).getD i d = a := by
  rw [List.getD_eq_getElem?_getD, List.getElem?_set]
  simp [h]

theorem getD_set_ne {α : Type _} (l : List α) (i j : Nat) (a d : α) (h : i ≠ j) :
    (l.set i a).getD j d = l.getD j d := by
  rw [List.getD_eq_getElem?_getD, List.getElem?_set, if_neg h,
    ← List.getD_eq_getElem?_getD]

/-! ### Facts about `cell_set` operations -/

theorem entries_init (cap : Nat) : cell_set_entries (cell_set_init cap) = [] :=
  flatten_replicate_nil cap

theorem contains_init (cap : Nat) (x y : Int) :
    cell_set_contains (cell_set_init cap) x y = false := by
  simp [cell_set_contains, cell_set_init, bucket_find, getD_replicate_nil]

theorem init_SetWF (cap : Nat) (h : 0 < cap) : SetWF (cell_set_init cap) where
  cap_pos := by simpa [cell_set_init] using h
  hash_ok := by
    intro i p hp
    simp [cell_set_init, getD_replicate_nil] at hp
  nodup := by rw [entries_init]; exact List.nodup_nil
  size_ok := by rw [entries_init]; rfl

theorem bucket_find_iff (x y : Int) (chain : List (Int × Int)) :
    bucket_find x y chain = true ↔ (x, y) ∈ chain := by
  unfold bucket_find
  rw [List.any_eq_true]
  constructor
  · rintro ⟨⟨a, b⟩, hp, hpxy⟩
    simp only [Bool.and_eq_true, beq_iff_eq] at hpxy
    obtain ⟨rfl, rfl⟩ := hpxy
    exact hp
  · intro hmem
    exact ⟨(x, y), hmem, by simp⟩

theorem contains_iff_mem {s : cell_set} (h : SetWF s) (x y : Int) :
    cell_set_contains s x y = true ↔ (x, y) ∈ cell_set_entries s := by
  unfold cell_set_contains
  rw [bucket_find_iff]
  constructor
  · intro hx
    exact mem_of_getD _ _ _ hx
  · intro hx
    rw [cell_set_entries, mem_flatten_iff_getD] at hx
    obtain ⟨i, hi⟩ := hx
    have hh := h.hash_ok i (x, y) hi
    rwa [hh]

theorem length_table_push (bs : List (List (Int × Int))) (p : Int × Int) :
    (table_push bs p).length = bs.length := by
  simp [table_push]

theorem flatten_table_push (bs : List (List (Int × Int))) (p : Int × Int)
    (h : 0 < bs.length) :
    (table_push bs p).flatten.Perm (p :: bs.flatten) :=
  flatten_set_perm bs _ p (Nat.mod_lt _ h)

theorem hash_ok_table_push (bs : List (List (Int × Int))) (p : Int × Int)
    (hlen : 0 < bs.length)
    (hh : ∀ i q, q ∈ bs.getD i [] → cell_hash bs.length q.1 q.2 = i) :
    ∀ i q, q ∈ (table_push bs p).getD i [] → cell_hash bs.length q.1 q.2 = i := by
  intro i q hq
  simp only [table_push] at hq
  have hlt : cell_hash bs.length p.1 p.2 < bs.length := Nat.mod_lt _ hlen
  by_cases hi : cell_hash bs.length p.1 p.2 = i
  · subst hi
    rw [getD_set_self _ _ _ _ hlt] at hq
    rcases List.mem_cons.mp hq with rfl | hq'
    · rfl
    · exact hh _ q hq'
  · rw [getD_set_ne _ _ _ _ _ hi] at hq
    exact hh i q hq

theorem foldl_table_push_spec (l : List (Int × Int)) (bs : List (List (Int × Int)))
    (hlen : 0 < bs.length)
    (hh : ∀ i q, q ∈ bs.getD i [] → cell_hash bs.length q.1 q.2 = i) :
    (l.foldl table_push bs).length = bs.length ∧
    (l.foldl table_push bs).flatten.Perm (l ++ bs.flatten) ∧
    (∀ i q, q ∈ (l.foldl table_push bs).getD i [] → cell_hash bs.length q.1 q.2 = i) := by
  induction l generalizing bs with
  | nil => exact ⟨rfl, List.Perm.refl _, hh⟩
  | cons a l ih =>
    have h1 : (table_push bs a).length = bs.length := length_table_push bs a
    have hlen' : 0 < (table_push bs a).length := by rw [h1]; exact hlen
    have hh' : ∀ i q, q ∈ (table_push bs a).getD i [] →
        cell_hash (table_push bs a).length q.1 q.2 = i := by
      rw [h1]
      exact hash_ok_table_push bs a hlen hh
    obtain ⟨g1, g2, g3⟩ := ih (table_push bs a) hlen' hh'
    refine ⟨by rw [List.foldl_cons, g1, h1], ?_, ?_⟩
    · rw [List.foldl_cons]
      simp only [List.cons_append]
      exact g2.trans
        (((flatten_table_push bs a hlen).append_left l).trans List.perm_middle)
    · rw [List.foldl_cons]
      intro i q hq
      have hg := g3 i q hq
      rwa [h1] at hg

theorem expand_spec {s : cell_set} (h : SetWF s) :
    SetWF (cell_set_expand s) ∧
    (cell_set_entries (cell_set_expand s)).Perm (cell_set_entries s) ∧
    (cell_set_expand s).size = s.size ∧
    (cell_set_expand s).buckets.length = s.buckets.length * 2 := by
  have hne : ¬s.buckets.length = 0 := Nat.pos_iff_ne_zero.mp h.cap_pos
  have hcap : (if s.buckets.length = 0 then 2048 else s.buckets.length * 2) =
      s.buckets.length * 2 := if_neg hne
  have hpos2 : 0 < s.buckets.length * 2 := Nat.mul_pos h.cap_pos (by decide)
  have hrep : (List.replicate (s.buckets.length * 2) ([] : List (Int × Int))).length =
      s.buckets.length * 2 := List.length_replicate _ _
  have hlen0 : 0 < (List.replicate (s.buckets.length * 2) ([] : List (Int × Int))).length := by
    rw [hrep]; exact hpos2
  have hh0 : ∀ i q, q ∈ (List.replicate (s.buckets.length * 2)
      ([] : List (Int × Int))).getD i [] →
      cell_hash (List.replicate (s.buckets.length * 2)
        ([] : List (Int × Int))).length q.1 q.2 = i := by
    intro i q hq
    rw [getD_replicate_nil] at hq
    simp at hq
  obtain ⟨g1, g2, g3⟩ := foldl_table_push_spec s.buckets.flatten _ hlen0 hh0
  have hbe : cell_set_expand s =
      ⟨s.buckets.flatten.foldl table_push
        (List.replicate (s.buckets.length * 2) []), s.size⟩ := by
    simp only [cell_set_expand, hcap]
  have hperm : (cell_set_entries (cell_set_expand s)).Perm (cell_set_entries s) := by
    rw [hbe]
    show (s.buckets.flatten.foldl table_push _).flatten.Perm s.buckets.flatten
    refine g2.trans ?_
    rw [flatten_replicate_nil, List.append_nil]
  have hlenE : (cell_set_expand s).buckets.length = s.buckets.length * 2 := by
    rw [hbe]
    show (s.buckets.flatten.foldl table_push _).length = _
    rw [g1, hrep]
  have hsize : (cell_set_expand s).size = s.size := by rw [hbe]
  refine ⟨⟨?_, ?_, ?_, ?_⟩, hperm, hsize, hlenE⟩
  · rw [hlenE]; exact hpos2
  · intro i q hq
    rw [hlenE, ← hrep]
    refine g3 i q ?_
    rw [hbe] at hq
    exact hq
  · exact hperm.nodup_iff.mpr h.nodup
  · rw [hsize, hperm.length_eq]
    exact h.size_ok

theorem insert_spec {s : cell_set} (h : SetWF s) (x y : Int) :
    SetWF (cell_set_insert s x y) ∧
    (cell_set_entries (cell_set_insert s x y)).Perm
      (if (x, y) ∈ cell_set_entries s then cell_set_entries s
       else (x, y) :: cell_set_entries s) ∧
    (cell_set_insert s x y).size =
      (if (x, y) ∈ cell_set_entries s then s.size else s.size + 1) := by
  by_cases hmem : (x, y) ∈ cell_set_entries s
  · have hc : cell_set_contains s x y = true := (contains_iff_mem h x y).mpr hmem
    have heq : cell_set_insert s x y = s := by
      simp only [cell_set_insert, hc, if_true]
    rw [heq, if_pos hmem, if_pos hmem]
    exact ⟨h, List.Perm.refl _, rfl⟩
  · have hc : ¬cell_set_contains s x y = true := fun hct =>
      hmem ((contains_iff_mem h x y).mp hct)
    have hs1 : SetWF (if s.buckets.length < (s.size + 1) * 2 then cell_set_expand s else s) ∧
        (cell_set_entries (if s.buckets.length < (s.size + 1) * 2 then cell_set_expand s
          else s)).Perm (cell_set_entries s) ∧
        (if s.buckets.length < (s.size + 1) * 2 then cell_set_expand s else s).size =
          s.size := by
      by_cases hgrow : s.buckets.length < (s.size + 1) * 2
      · rw [if_pos hgrow]
        obtain ⟨w, p, sz, _⟩ := expand_spec h
        exact ⟨w, p, sz⟩
      · rw [if_neg hgrow]
        exact ⟨h, List.Perm.refl _, rfl⟩
    set s1 := if s.buckets.length < (s.size + 1) * 2 then cell_set_expand s else s with hs1def
    obtain ⟨hw1, hp1, hsz1⟩ := hs1
    have heq : cell_set_insert s x y = ⟨table_push s1.buckets (x, y), s1.size + 1⟩ := by
      simp only [cell_set_insert, hc, if_false, Bool.false_eq_true]
    have hpush : (table_push s1.buckets (x, y)).flatten.Perm
        ((x, y) :: s1.buckets.flatten) :=
      flatten_table_push s1.buckets (x, y) hw1.cap_pos
    have hperm : (cell_set_entries (cell_set_insert s x y)).Perm
        ((x, y) :: cell_set_entries s) := by
      rw [heq]
      exact hpush.trans (hp1.cons (x, y))
    have hnotmem : (x, y) ∉ cell_set_entries s1 := fun hin =>
      hmem (hp1.mem_iff.mp hin)
    refine ⟨⟨?_, ?_, ?_, ?_⟩, by rw [if_neg hmem]; exact hperm, by rw [heq, if_neg hmem, hsz1]⟩
    · rw [heq]
      show 0 < (table_push s1.buckets (x, y)).length
      rw [length_table_push]
      exact hw1.cap_pos
    · rw [heq]
      show ∀ i q, q ∈ (table_push s1.buckets (x, y)).getD i [] →
        cell_hash (table_push s1.buckets (x, y)).length q.1 q.2 = i
      rw [length_table_push]
      exact hash_ok_table_push s1.buckets (x, y) hw1.cap_pos hw1.hash_ok
    · refine hperm.nodup_iff.mpr ?_
      rw [List.nodup_cons]
      exact ⟨fun hin => hmem hin, h.nodup⟩
    · rw [heq]
      show s1.size + 1 = (cell_set_entries ⟨table_push s1.buckets (x, y), s1.size + 1⟩).length
      have hlen2 : (cell_set_entries ⟨table_push s1.buckets (x, y), s1.size + 1⟩).length =
          (cell_set_entries s1).length + 1 := by
        have hl := hpush.length_eq
        simpa [cell_set_entries] using hl
      rw [hlen2, ← hw1.size_ok]

theorem insert_SetWF {s : cell_set} (h : SetWF s) (x y : Int) :
    SetWF (cell_set_insert s x y) :=
  (insert_spec h x y).1

theorem mem_entries_insert {s : cell_set} (h : SetWF s) (x y a b : Int) :
    (a, b) ∈ cell_set_entries (cell_set_insert s x y) ↔
      (a, b) ∈ cell_set_entries s ∨ (a, b) = (x, y) := by
  obtain ⟨_, hp, _⟩ := insert_spec h x y
  rw [hp.mem_iff]
  by_cases hmem : (x, y) ∈ cell_set_entries s
  · rw [if_pos hmem]
    constructor
    · exact Or.inl
    · rintro (hi | heq)
      · exact hi
      · rw [heq]; exact hmem
  · rw [if_neg hmem, List.mem_cons]
    tauto

theorem entries_finset_insert {s : cell_set} (h : SetWF s) (x y : Int) :
    entries_finset (cell_set_insert s x y) = insert (x, y) (entries_finset s) := by
  ext ⟨a, b⟩
  simp only [entries_finset, List.mem_toFinset, Finset.mem_insert]
  rw [mem_entries_insert h x y a b]
  tauto

theorem count_eq_card {s : cell_set} (h : SetWF s) :
    cell_set_count s = (entries_finset s).card := by
  rw [cell_set_count, h.size_ok, entries_finset,
    List.toFinset_card_of_nodup h.nodup]

theorem contains_iff_mem_finset {s : cell_set} (h : SetWF s) (x y : Int) :
    cell_set_contains s x y = true ↔ (x, y) ∈ entries_finset s := by
  rw [contains_iff_mem h, entries_finset, List.mem_toFinset]

/-! ### Facts about count-map chains -/

theorem chain_count_nil (x y : Int) : chain_count x y [] = 0 := rfl

theorem chain_count_cons (x y : Int) (e : Int × Int × Nat)
    (rest : List (Int × Int × Nat)) :
    chain_count x y (e :: rest) =
      if e.1 = x ∧ e.2.1 = y then e.2.2 else chain_count x y rest := by
  by_cases hk : e.1 = x ∧ e.2.1 = y
  · rw [if_pos hk]
    unfold chain_count
    rw [List.find?_cons]
    have : (e.1 == x && e.2.1 == y) = true := by
      simp [hk.1, hk.2]
    rw [this]
  · rw [if_neg hk]
    unfold chain_count
    rw [List.find?_cons]
    have : (e.1 == x && e.2.1 == y) = false := by
      rcases not_and_or.mp hk with h1 | h2
      · simp [h1]
      · simp [h2]
    rw [this]

theorem chain_has_iff (x y : Int) (ch : List (Int × Int × Nat)) :
    chain_has x y ch = true ↔ ∃ e ∈ ch, e.1 = x ∧ e.2.1 = y := by
  unfold chain_has
  rw [List.any_eq_true]
  constructor
  · rintro ⟨e, he, hp⟩
    simp only [Bool.and_eq_true, beq_iff_eq] at hp
    exact ⟨e, he, hp⟩
  · rintro ⟨e, he, h1, h2⟩
    exact ⟨e, he, by simp [h1, h2]⟩

theorem chain_count_eq_zero_of_not_has (x y : Int) (ch : List (Int × Int × Nat))
    (h : chain_has x y ch = false) : chain_count x y ch = 0 := by
  induction ch with
  | nil => rfl
  | cons e rest ih =>
    rw [chain_count_cons]
    have hnot : ¬(e.1 = x ∧ e.2.1 = y) := by
      intro hk
      have : chain_has x y (e :: rest) = true :=
        (chain_has_iff x y _).mpr ⟨e, List.mem_cons_self e rest, hk⟩
      rw [h] at this
      exact Bool.false_ne_true this
    rw [if_neg hnot]
    refine ih ?_
    unfold chain_has at h ⊢
    rw [List.any_cons] at h
    exact (Bool.or_eq_false_iff.mp h).2

theorem chain_bump_keys (x y : Int) (ch : List (Int × Int × Nat)) :
    (chain_bump x y ch).map (fun e => (e.1, e.2.1)) = ch.map (fun e => (e.1, e.2.1)) := by
  induction ch with
  | nil => rfl
  | cons e rest ih =>
    unfold chain_bump
    by_cases hk : (e.1 == x && e.2.1 == y) = true
    · rw [if_pos hk]
      simp only [Bool.and_eq_true, beq_iff_eq] at hk
      simp [hk.1, hk.2]
    · rw [if_neg hk]
      simp [ih]

theorem chain_bump_count_self (x y : Int) (ch : List (Int × Int × Nat))
    (h : chain_has x y ch = true) :
    chain_count x y (chain_bump x y ch) = chain_count x y ch + 1 := by
  induction ch with
  | nil => simp [chain_has] at h
  | cons e rest ih =>
    unfold chain_bump
    by_cases hk : (e.1 == x && e.2.1 == y) = true
    · rw [if_pos hk]
      simp only [Bool.and_eq_true, beq_iff_eq] at hk
      rw [chain_count_cons, chain_count_cons, if_pos ⟨rfl, rfl⟩, if_pos hk]
    · rw [if_neg hk]
      have hnot : ¬(e.1 = x ∧ e.2.1 = y) := by
        intro hc
        exact hk (by simp [hc.1, hc.2])
      rw [chain_count_cons, chain_count_cons, if_neg hnot, if_neg hnot]
      refine ih ?_
      unfold chain_has at h
      rw [List.any_cons] at h
      rcases Bool.or_eq_true_iff.mp h with h1 | h2
      · exact absurd h1 hk
      · exact h2

theorem chain_bump_count_other (x y a b : Int) (ch : List (Int × Int × Nat))
    (hne : ¬(a = x ∧ b = y)) :
    chain_count a b (chain_bump x y ch) = chain_count a b ch := by
  induction ch with
  | nil => rfl
  | cons e rest ih =>
    unfold chain_bump
    by_cases hk : (e.1 == x && e.2.1 == y) = true
    · rw [if_pos hk]
      simp only [Bool.and_eq_true, beq_iff_eq] at hk
      have hne1 : ¬(x = a ∧ y = b) := fun hc => hne ⟨hc.1.symm, hc.2.symm⟩
      have hne2 : ¬(e.1 = a ∧ e.2.1 = b) := by
        rw [hk.1, hk.2]
        exact hne1
      rw [chain_count_cons, chain_count_cons, if_neg hne2]
      exact if_neg (by simpa using hne1)
    · rw [if_neg hk]
      rw [chain_count_cons, chain_count_cons]
      by_cases he : e.1 = a ∧ e.2.1 = b
      · rw [if_pos he, if_pos he]
      · rw [if_neg he, if_neg he, ih]

theorem chain_bump_pos (x y : Int) (ch : List (Int × Int × Nat))
    (h : ∀ e ∈ ch, 1 ≤ e.2.2) : ∀ e ∈ chain_bump x y ch, 1 ≤ e.2.2 := by
  induction ch with
  | nil => intro e he; simp [chain_bump] at he
  | cons f rest ih =>
    intro e he
    unfold chain_bump at he
    by_cases hk : (f.1 == x && f.2.1 == y) = true
    · rw [if_pos hk] at he
      rcases List.mem_cons.mp he with heq | hrest
      · rw [heq]
        exact Nat.le_add_left 1 f.2.2
      · exact h e (List.mem_cons_of_mem f hrest)
    · rw [if_neg hk] at he
      rcases List.mem_cons.mp he with heq | hrest
      · rw [heq]
        exact h f (List.mem_cons_self f rest)
      · exact ih (fun g hg => h g (List.mem_cons_of_mem f hg)) e hrest

theorem chain_count_of_mem (e : Int × Int × Nat) (ch : List (Int × Int × Nat))
    (hnd : (ch.map (fun f => (f.1, f.2.1))).Nodup) (he : e ∈ ch) :
    chain_count e.1 e.2.1 ch = e.2.2 := by
  induction ch with
  | nil => simp at he
  | cons f rest ih =>
    rw [List.map_cons, List.nodup_cons] at hnd
    rcases List.mem_cons.mp he with heq | hrest
    · rw [heq, chain_count_cons, if_pos ⟨rfl, rfl⟩]
    · rw [chain_count_cons]
      have hne : ¬(f.1 = e.1 ∧ f.2.1 = e.2.1) := by
        intro hk
        refine hnd.1 ?_
        rw [List.mem_map]
        exact ⟨e, hrest, by rw [hk.1, hk.2]⟩
      rw [if_neg hne]
      exact ih hnd.2 hrest

theorem chain_count_pos_mem (a b : Int) (ch : List (Int × Int × Nat))
    (h : 1 ≤ chain_count a b ch) : (a, b, chain_count a b ch) ∈ ch := by
  induction ch with
  | nil => simp [chain_count_nil] at h
  | cons f rest ih =>
    obtain ⟨f1, f2, f3⟩ := f
    rw [chain_count_cons] at h ⊢
    by_cases hk : (f1, f2, f3).1 = a ∧ (f1, f2, f3).2.1 = b
    · rw [if_pos hk] at h ⊢
      simp only at hk
      rw [← hk.1, ← hk.2]
      exact List.mem_cons_self _ rest
    · rw [if_neg hk] at h ⊢
      exact List.mem_cons_of_mem _ (ih h)

theorem flatten_eq_parts {α : Type _} (bs : List (List α)) (i : Nat) (h : i < bs.length) :
    bs.flatten = (bs.take i).flatten ++ bs.getD i [] ++ (bs.drop (i + 1)).flatten := by
  conv_lhs => rw [← List.take_append_drop i bs]
  rw [← List.getElem_cons_drop bs i h, List.flatten_append, List.flatten_cons,
    getD_eq_getElem _ _ _ h, List.append_assoc]

theorem flatten_set_eq_parts {α : Type _} (bs : List (List α)) (i : Nat) (ch : List α)
    (h : i < bs.length) :
    (bs.set i ch).flatten = (bs.take i).flatten ++ ch ++ (bs.drop (i + 1)).flatten := by
  rw [List.set_eq_take_append_cons_drop, if_pos h, List.flatten_append, List.flatten_cons,
    List.append_assoc]

/-! ### Facts about `count_map` operations -/

theorem cget_init (cap : Nat) (x y : Int) :
    count_map_get_count (count_map_init cap) x y = 0 := by
  simp [count_map_get_count, count_map_init, getD_replicate_nil, chain_count_nil]

theorem init_MapWF (cap : Nat) (h : 0 < cap) : MapWF (count_map_init cap) where
  cap_pos := by simpa [count_map_init] using h
  hash_ok := by
    intro i e he
    simp [count_map_init, getD_replicate_nil] at he
  keys_nodup := by
    simp [count_map_init, flatten_replicate_nil]
  pos := by
    intro e he
    simp [count_map_init, flatten_replicate_nil] at he

theorem increment_spec {m : count_map} (h : MapWF m) (x y : Int) :
    MapWF (count_map_increment m x y) ∧
    (count_map_increment m x y).buckets.length = m.buckets.length ∧
    (∀ a b : Int, count_map_get_count (count_map_increment m x y) a b =
      if a = x ∧ b = y then count_map_get_count m x y + 1
      else count_map_get_count m a b) := by
  have hlt : count_hash m.buckets.length x y < m.buckets.length :=
    Nat.mod_lt _ h.cap_pos
  set i := count_hash m.buckets.length x y with hidef
  set ch := m.buckets.getD i [] with hchdef
  set ch' := if chain_has x y ch then chain_bump x y ch else (x, y, 1) :: ch with hchain2
  have heq : count_map_increment m x y = ⟨m.buckets.set i ch'⟩ := rfl
  have hlen : (count_map_increment m x y).buckets.length = m.buckets.length := by
    rw [heq]
    exact List.length_set m.buckets i ch'
  -- the new key, if a fresh entry was prepended, occurs nowhere in the map
  have hfresh : chain_has x y ch = false →
      (x, y) ∉ m.buckets.flatten.map (fun e => (e.1, e.2.1)) := by
    intro hno hmemk
    rw [List.mem_map] at hmemk
    obtain ⟨e, he, hkey⟩ := hmemk
    rw [mem_flatten_iff_getD] at he
    obtain ⟨j, hj⟩ := he
    obtain ⟨hx, hy⟩ := Prod.mk.inj hkey
    have hhash := h.hash_ok j e hj
    rw [hx, hy] at hhash
    rw [← hhash] at hj
    have hht : chain_has x y ch = true :=
      (chain_has_iff x y ch).mpr ⟨e, hj, hx, hy⟩
    rw [hno] at hht
    exact Bool.false_ne_true hht
  have hparts := flatten_eq_parts m.buckets i hlt
  have hparts' := flatten_set_eq_parts m.buckets i ch' hlt
  have hkeys' : ((m.buckets.set i ch').flatten.map (fun e => (e.1, e.2.1))) =
      ((m.buckets.take i).flatten.map (fun e => (e.1, e.2.1))) ++
      (ch'.map (fun e => (e.1, e.2.1))) ++
      ((m.buckets.drop (i + 1)).flatten.map (fun e => (e.1, e.2.1))) := by
    rw [hparts', List.map_append, List.map_append]
  have hkeys : (m.buckets.flatten.map (fun e => (e.1, e.2.1))) =
      ((m.buckets.take i).flatten.map (fun e => (e.1, e.2.1))) ++
      (ch.map (fun e => (e.1, e.2.1))) ++
      ((m.buckets.drop (i + 1)).flatten.map (fun e => (e.1, e.2.1))) := by
    rw [hparts, ← hchdef, List.map_append, List.map_append]
  refine ⟨⟨?_, ?_, ?_, ?_⟩, hlen, ?_⟩
  · rw [hlen]; exact h.cap_pos
  · -- hash_ok
    intro j e he
    rw [hlen] at *
    rw [heq] at he
    by_cases hji : i = j
    · subst hji
      rw [getD_set_self _ _ _ _ hlt] at he
      rw [hchain2] at he
      by_cases hhas : chain_has x y ch = true
      · rw [if_pos hhas] at he
        have hkmem : (e.1, e.2.1) ∈ (chain_bump x y ch).map (fun f => (f.1, f.2.1)) :=
          List.mem_map_of_mem _ he
        rw [chain_bump_keys] at hkmem
        rw [List.mem_map] at hkmem
        obtain ⟨f, hf, hfk⟩ := hkmem
        obtain ⟨hx, hy⟩ := Prod.mk.inj hfk
        have hhf := h.hash_ok i f hf
        rw [hx, hy] at hhf
        exact hhf
      · rw [if_neg hhas] at he
        rcases List.mem_cons.mp he with heq' | he'
        · rw [heq']
        · exact h.hash_ok i e he'
    · rw [getD_set_ne _ _ _ _ _ hji] at he
      exact h.hash_ok j e he
  · -- keys_nodup
    rw [heq]
    show ((m.buckets.set i ch').flatten.map (fun e => (e.1, e.2.1))).Nodup
    rw [hkeys']
    rw [hchain2]
    by_cases hhas : chain_has x y ch = true
    · rw [if_pos hhas, chain_bump_keys]
      rw [← hkeys]
      exact h.keys_nodup
    · rw [if_neg hhas]
      have hhasF : chain_has x y ch = false := by
        revert hhas
        cases chain_has x y ch <;> simp
      have hnd := h.keys_nodup
      rw [hkeys] at hnd
      rw [List.map_cons]
      have hperm : ((m.buckets.take i).flatten.map (fun e => (e.1, e.2.1)) ++
          ((x, y) :: ch.map (fun e => (e.1, e.2.1))) ++
          (m.buckets.drop (i + 1)).flatten.map (fun e => (e.1, e.2.1))).Perm
          ((x, y) :: ((m.buckets.take i).flatten.map (fun e => (e.1, e.2.1)) ++
            ch.map (fun e => (e.1, e.2.1)) ++
            (m.buckets.drop (i + 1)).flatten.map (fun e => (e.1, e.2.1)))) := by
        simp only [List.append_assoc, List.cons_append]
        exact List.perm_middle
      rw [hperm.nodup_iff, List.nodup_cons]
      refine ⟨?_, hnd⟩
      intro hmemk
      refine hfresh hhasF ?_
      rw [hkeys]
      exact hmemk
  · -- pos
    intro e he
    rw [heq] at he
    show 1 ≤ e.2.2
    rw [mem_flatten_iff_getD] at he
    obtain ⟨j, hj⟩ := he
    by_cases hji : i = j
    · subst hji
      rw [getD_set_self _ _ _ _ hlt] at hj
      rw [hchain2] at hj
      by_cases hhas : chain_has x y ch = true
      · rw [if_pos hhas] at hj
        refine chain_bump_pos x y ch ?_ e hj
        intro f hf
        exact h.pos f (mem_of_getD _ i _ hf)
      · rw [if_neg hhas] at hj
        rcases List.mem_cons.mp hj with heq' | hj'
        · rw [heq']
        · exact h.pos e (mem_of_getD _ i _ hj')
    · rw [getD_set_ne _ _ _ _ _ hji] at hj
      exact h.pos e (mem_of_getD _ j _ hj)
  · -- get_count
    intro a b
    by_cases hab : a = x ∧ b = y
    · rw [if_pos hab]
      obtain ⟨rfl, rfl⟩ := hab
      show chain_count a b ((count_map_increment m a b).buckets.getD
        (count_hash (count_map_increment m a b).buckets.length a b) []) = _
      rw [hlen, heq]
      show chain_count a b ((m.buckets.set i ch').getD i []) = _
      rw [getD_set_self _ _ _ _ hlt, hchain2]
      by_cases hhas : chain_has a b ch = true
      · rw [if_pos hhas]
        exact chain_bump_count_self a b ch hhas
      · have hhasF : chain_has a b ch = false := by
          revert hhas
          cases chain_has a b ch <;> simp
        rw [if_neg hhas]
        rw [chain_count_cons, if_pos ⟨rfl, rfl⟩]
        show 1 = count_map_get_count m a b + 1
        rw [count_map_get_count, ← hidef, ← hchdef,
          chain_count_eq_zero_of_not_has a b ch hhasF]
    · rw [if_neg hab]
      show chain_count a b ((count_map_increment m x y).buckets.getD
        (count_hash (count_map_increment m x y).buckets.length a b) []) = _
      rw [hlen, heq]
      by_cases hjj : i = count_hash m.buckets.length a b
      · rw [← hjj, getD_set_self _ _ _ _ hlt, hchain2]
        have hcc : count_map_get_count m a b = chain_count a b ch := by
          rw [count_map_get_count, ← hjj, ← hchdef]
        rw [hcc]
        by_cases hhas : chain_has x y ch = true
        · rw [if_pos hhas]
          exact chain_bump_count_other x y a b ch hab
        · rw [if_neg hhas]
          rw [chain_count_cons]
          have hne' : ¬(((x, y, 1) : Int × Int × Nat).1 = a ∧
              ((x, y, 1) : Int × Int × Nat).2.1 = b) := by
            simp only
            intro hc
            exact hab ⟨hc.1.symm, hc.2.symm⟩
          rw [if_neg hne']
      · rw [getD_set_ne _ _ _ _ _ hjj]
        rw [count_map_get_count]

theorem cget_of_mem {m : count_map} (h : MapWF m) (e : Int × Int × Nat)
    (he : e ∈ m.buckets.flatten) : count_map_get_count m e.1 e.2.1 = e.2.2 := by
  rw [mem_flatten_iff_getD] at he
  obtain ⟨j, hj⟩ := he
  have hhash := h.hash_ok j e hj
  have hch_sub : (m.buckets.getD j []).Sublist m.buckets.flatten := by
    by_cases hjl : j < m.buckets.length
    · rw [flatten_eq_parts m.buckets j hjl]
      exact (List.sublist_append_right _ _).trans (List.sublist_append_left _ _)
    · rw [getD_of_length_le _ _ _ (Nat.le_of_not_lt hjl)]
      exact List.nil_sublist _
  have hnd : ((m.buckets.getD j []).map (fun f => (f.1, f.2.1))).Nodup :=
    (hch_sub.map _).nodup h.keys_nodup
  rw [count_map_get_count, hhash]
  exact chain_count_of_mem e _ hnd hj

theorem mem_of_cget_pos (m : count_map) (a b : Int)
    (hpos : 1 ≤ count_map_get_count m a b) :
    (a, b, count_map_get_count m a b) ∈ m.buckets.flatten := by
  rw [count_map_get_count] at hpos ⊢
  exact mem_of_getD _ _ _ (chain_count_pos_mem a b _ hpos)

theorem cget_foldl_increments (ds : List (Int × Int)) (m : count_map)
    (h : MapWF m) (p c : Int × Int) :
    MapWF (ds.foldl (fun acc d => count_map_increment acc (p.1 + d.1) (p.2 + d.2)) m) ∧
    count_map_get_count
        (ds.foldl (fun acc d => count_map_increment acc (p.1 + d.1) (p.2 + d.2)) m) c.1 c.2 =
      count_map_get_count m c.1 c.2 + ds.count (c.1 - p.1, c.2 - p.2) := by
  induction ds generalizing m with
  | nil => exact ⟨h, rfl⟩
  | cons d rest ih =>
    obtain ⟨hW, hL, hG⟩ := increment_spec h (p.1 + d.1) (p.2 + d.2)
    obtain ⟨ihW, ihG⟩ := ih (count_map_increment m (p.1 + d.1) (p.2 + d.2)) hW
    refine ⟨by rw [List.foldl_cons]; exact ihW, ?_⟩
    rw [List.foldl_cons, ihG, hG c.1 c.2, List.count_cons]
    by_cases hcd : c.1 = p.1 + d.1 ∧ c.2 = p.2 + d.2
    · have hdv : (d == ((c.1 - p.1, c.2 - p.2) : Int × Int)) = true := by
        obtain ⟨d1, d2⟩ := d
        simp only at hcd
        simp only [beq_iff_eq, Prod.mk.injEq]
        omega
      rw [if_pos hcd, if_pos hdv, hcd.1, hcd.2]
      omega
    · have hdv : (d == ((c.1 - p.1, c.2 - p.2) : Int × Int)) = false := by
        obtain ⟨d1, d2⟩ := d
        simp only at hcd
        simp only [beq_eq_false_iff_ne, ne_eq, Prod.mk.injEq]
        intro hcon
        exact hcd (by omega)
      rw [if_neg hcd, if_neg (by simp [hdv])]
      omega

theorem countP_eq_key {α : Type _} [DecidableEq α] (l : List α) (v : α) (pred : α → Bool)
    (hp : ∀ a, pred a = true ↔ a = v) (hnd : l.Nodup) :
    l.countP pred = if v ∈ l then 1 else 0 := by
  induction l with
  | nil => simp
  | cons a l ih =>
    rw [List.nodup_cons] at hnd
    rw [List.countP_cons]
    by_cases ha : a = v
    · subst ha
      have hz : l.countP pred = 0 := by
        rw [List.countP_eq_zero]
        intro b hb hpb
        rw [(hp b).mp hpb] at hb
        exact hnd.1 hb
      rw [hz, if_pos ((hp a).mpr rfl), if_pos (List.mem_cons_self a l)]
    · have hpa : ¬pred a = true := fun hpa => ha ((hp a).mp hpa)
      rw [if_neg hpa, ih hnd.2, Nat.add_zero]
      by_cases hv : v ∈ l
      · rw [if_pos hv, if_pos (List.mem_cons_of_mem a hv)]
      · rw [if_neg hv, if_neg ?_]
        intro hvc
        rcases List.mem_cons.mp hvc with heq | hm
        · exact ha heq.symm
        · exact hv hm

theorem moore_count (v : Int × Int) :
    mooreOffsets.count v = if v ∈ mooreOffsets then 1 else 0 := by
  rw [List.count_eq_countP,
    countP_eq_key mooreOffsets v _ (fun a => beq_iff_eq) (by decide)]
  by_cases hv : v ∈ mooreOffsets <;> simp [hv]

theorem is_moore_neighbor_iff (p c : Int × Int) :
    is_moore_neighbor p c = true ↔ (c.1 - p.1, c.2 - p.2) ∈ mooreOffsets := by
  unfold is_moore_neighbor
  exact List.elem_iff

theorem neighbor_increments_spec {m : count_map} (h : MapWF m) (p : Int × Int) :
    MapWF (neighbor_increments m p) ∧
    ∀ c : Int × Int, count_map_get_count (neighbor_increments m p) c.1 c.2 =
      count_map_get_count m c.1 c.2 + (if is_moore_neighbor p c then 1 else 0) := by
  constructor
  · exact (cget_foldl_increments mooreOffsets m h p (0, 0)).1
  · intro c
    unfold neighbor_increments
    rw [(cget_foldl_increments mooreOffsets m h p c).2, moore_count]
    by_cases hm : ((c.1 - p.1, c.2 - p.2) : Int × Int) ∈ mooreOffsets
    · rw [if_pos hm, if_pos ((is_moore_neighbor_iff p c).mpr hm)]
    · rw [if_neg hm, if_neg ?_]
      intro hmn
      exact hm ((is_moore_neighbor_iff p c).mp hmn)

theorem cget_foldl_neighbor (l : List (Int × Int)) (m : count_map) (h : MapWF m) :
    MapWF (l.foldl neighbor_increments m) ∧
    ∀ c : Int × Int, count_map_get_count (l.foldl neighbor_increments m) c.1 c.2 =
      count_map_get_count m c.1 c.2 + l.countP (fun p => is_moore_neighbor p c) := by
  induction l generalizing m with
  | nil => exact ⟨h, fun c => by simp⟩
  | cons p rest ih =>
    obtain ⟨hW, hG⟩ := neighbor_increments_spec h p
    obtain ⟨ihW, ihG⟩ := ih (neighbor_increments m p) hW
    refine ⟨by rw [List.foldl_cons]; exact ihW, ?_⟩
    intro c
    rw [List.foldl_cons, ihG c, hG c, List.countP_cons]
    by_cases hm : is_moore_neighbor p c = true
    · rw [if_pos hm]
      omega
    · rw [if_neg hm]
      omega

theorem step_counts_spec (l : List (Int × Int)) :
    MapWF (step_counts l) ∧
    ∀ c : Int × Int, count_map_get_count (step_counts l) c.1 c.2 =
      l.countP (fun p => is_moore_neighbor p c) := by
  obtain ⟨hW, hG⟩ := cget_foldl_neighbor l (count_map_init 4096)
    (init_MapWF 4096 (by decide))
  refine ⟨hW, fun c => ?_⟩
  rw [step_counts] at *
  rw [hG c, cget_init]
  omega

theorem fold_rule_insert (live : cell_set) (L : List (Int × Int × Nat))
    (ns : cell_set) (h : SetWF ns) :
    SetWF (L.foldl (fun t e => if life_rule live e then cell_set_insert t e.1 e.2.1 else t) ns) ∧
    ∀ a b : Int,
      ((a, b) ∈ cell_set_entries
          (L.foldl (fun t e => if life_rule live e then cell_set_insert t e.1 e.2.1 else t) ns) ↔
        (a, b) ∈ cell_set_entries ns ∨
          ∃ e ∈ L, e.1 = a ∧ e.2.1 = b ∧ life_rule live e = true) := by
  induction L generalizing ns with
  | nil =>
    refine ⟨h, fun a b => ?_⟩
    simp
  | cons e rest ih =>
    have hW' : SetWF (if life_rule live e then cell_set_insert ns e.1 e.2.1 else ns) := by
      by_cases hr : life_rule live e = true
      · rw [if_pos hr]
        exact insert_SetWF h e.1 e.2.1
      · rw [if_neg hr]
        exact h
    obtain ⟨ihW, ihG⟩ := ih _ hW'
    refine ⟨by rw [List.foldl_cons]; exact ihW, ?_⟩
    intro a b
    rw [List.foldl_cons, ihG a b]
    have hmem : (a, b) ∈ cell_set_entries
        (if life_rule live e then cell_set_insert ns e.1 e.2.1 else ns) ↔
        (a, b) ∈ cell_set_entries ns ∨ (e.1 = a ∧ e.2.1 = b ∧ life_rule live e = true) := by
      by_cases hr : life_rule live e = true
      · rw [if_pos hr, mem_entries_insert h e.1 e.2.1 a b]
        constructor
        · rintro (hin | heq)
          · exact Or.inl hin
          · obtain ⟨h1, h2⟩ := Prod.mk.inj heq
            exact Or.inr ⟨h1.symm, h2.symm, hr⟩
        · rintro (hin | ⟨h1, h2, _⟩)
          · exact Or.inl hin
          · exact Or.inr (by rw [h1, h2])
      · rw [if_neg hr]
        constructor
        · exact Or.inl
        · rintro (hin | ⟨_, _, hr'⟩)
          · exact hin
          · exact absurd hr' hr
    rw [hmem]
    constructor
    · rintro ((hin | hkey) | ⟨f, hf, hk⟩)
      · exact Or.inl hin
      · exact Or.inr ⟨e, List.mem_cons_self e rest, hkey⟩
      · exact Or.inr ⟨f, List.mem_cons_of_mem e hf, hk⟩
    · rintro (hin | ⟨f, hf, hk⟩)
      · exact Or.inl (Or.inl hin)
      · rcases List.mem_cons.mp hf with heq | hf'
        · exact Or.inl (Or.inr (heq ▸ hk))
        · exact Or.inr ⟨f, hf', hk⟩

theorem step_spec {st : life_state} (h : SetWF st.live) :
    SetWF (life_state_step st).live ∧
    ∀ a b : Int, (cell_set_contains (life_state_step st).live a b = true ↔
      (1 ≤ live_neighbor_count st.live a b ∧
        (live_neighbor_count st.live a b = 3 ∨
          (live_neighbor_count st.live a b = 2 ∧
            cell_set_contains st.live a b = true)))) := by
  obtain ⟨hMW, hMG⟩ := step_counts_spec (cell_set_entries st.live)
  have hin : SetWF (cell_set_init st.live.buckets.length) :=
    init_SetWF _ h.cap_pos
  obtain ⟨hFW, hFG⟩ := fold_rule_insert st.live
    (step_counts (cell_set_entries st.live)).buckets.flatten
    (cell_set_init st.live.buckets.length) hin
  have hlive : (life_state_step st).live =
      (step_counts (cell_set_entries st.live)).buckets.flatten.foldl
        (fun t e => if life_rule st.live e then cell_set_insert t e.1 e.2.1 else t)
        (cell_set_init st.live.buckets.length) := rfl
  refine ⟨by rw [hlive]; exact hFW, ?_⟩
  intro a b
  have hcont : cell_set_contains (life_state_step st).live a b = true ↔
      (a, b) ∈ cell_set_entries (life_state_step st).live := by
    refine contains_iff_mem ?_ a b
    rw [hlive]
    exact hFW
  rw [hcont, hlive, hFG a b, entries_init]
  simp only [List.not_mem_nil, false_or]
  constructor
  · rintro ⟨e, he, h1, h2, hrule⟩
    have hg := cget_of_mem hMW e he
    rw [h1, h2] at hg
    rw [hMG (a, b)] at hg
    have hg2 : live_neighbor_count st.live a b = e.2.2 := hg
    have hpos := hMW.pos e he
    rw [life_rule] at hrule
    rcases Bool.or_eq_true_iff.mp hrule with h3 | h23
    · have h3' : e.2.2 = 3 := beq_iff_eq.mp h3
      exact ⟨by omega, Or.inl (by omega)⟩
    · rw [Bool.and_eq_true] at h23
      obtain ⟨halive, h2'⟩ := h23
      have h2'' : e.2.2 = 2 := beq_iff_eq.mp h2'
      refine ⟨by omega, Or.inr ⟨by omega, ?_⟩⟩
      rw [h1, h2] at halive
      exact halive
  · rintro ⟨hpos, hrule⟩
    have hgc : count_map_get_count (step_counts (cell_set_entries st.live)) a b =
        live_neighbor_count st.live a b := hMG (a, b)
    have hpos' : 1 ≤ count_map_get_count (step_counts (cell_set_entries st.live)) a b := by
      rw [hgc]; exact hpos
    refine ⟨(a, b, count_map_get_count (step_counts (cell_set_entries st.live)) a b),
      mem_of_cget_pos _ a b hpos', rfl, rfl, ?_⟩
    rw [life_rule]
    simp only [hgc]
    rcases hrule with h3 | ⟨h2, halive⟩
    · rw [h3]
      rfl
    · rw [h2, halive]
      rfl

theorem contains_insert {s : cell_set} (h : SetWF s) (x y a b : Int) :
    cell_set_contains (cell_set_insert s x y) a b = true ↔
      (cell_set_contains s a b = true ∨ (a = x ∧ b = y)) := by
  rw [contains_iff_mem (insert_SetWF h x y), mem_entries_insert h x y a b,
    contains_iff_mem h]
  constructor
  · rintro (hm | heq)
    · exact Or.inl hm
    · obtain ⟨h1, h2⟩ := Prod.mk.inj heq
      exact Or.inr ⟨h1, h2⟩
  · rintro (hm | ⟨h1, h2⟩)
    · exact Or.inl hm
    · exact Or.inr (by rw [h1, h2])

theorem live_neighbor_count_eq_card {s : cell_set} (h : SetWF s) (x y : Int) :
    live_neighbor_count s x y = neighbor_finset_count (entries_finset s) (x, y) := by
  rw [live_neighbor_count, List.countP_eq_length_filter, neighbor_finset_count,
    entries_finset, ← List.toFinset_filter,
    List.toFinset_card_of_nodup (h.nodup.filter _)]

theorem cand_mem_iff (S : Finset (Int × Int)) (a b : Int) :
    ((a, b) ∈ S.biUnion
        (fun p => (mooreOffsets.map (fun d => (p.1 + d.1, p.2 + d.2))).toFinset)) ↔
      1 ≤ neighbor_finset_count S (a, b) := by
  rw [Finset.mem_biUnion]
  constructor
  · rintro ⟨p, hp, hmem⟩
    rw [List.mem_toFinset, List.mem_map] at hmem
    obtain ⟨d, hd, hpd⟩ := hmem
    have hmn : is_moore_neighbor p (a, b) = true := by
      rw [is_moore_neighbor_iff]
      obtain ⟨h1, h2⟩ := Prod.mk.inj hpd
      have hdv : ((((a, b) : Int × Int).1 - p.1, ((a, b) : Int × Int).2 - p.2) : Int × Int) = d := by
        obtain ⟨d1, d2⟩ := d
        simp only at h1 h2 ⊢
        rw [Prod.mk.injEq]
        omega
      rw [hdv]
      exact hd
    exact Finset.card_pos.mpr ⟨p, Finset.mem_filter.mpr ⟨hp, hmn⟩⟩
  · intro hpos
    have hne : (S.filter (fun q => is_moore_neighbor q (a, b) = true)).Nonempty :=
      Finset.card_pos.mp hpos
    obtain ⟨p, hp⟩ := hne
    rw [Finset.mem_filter] at hp
    refine ⟨p, hp.1, ?_⟩
    rw [List.mem_toFinset, List.mem_map]
    have hd := (is_moore_neighbor_iff p (a, b)).mp hp.2
    refine ⟨(a - p.1, b - p.2), hd, ?_⟩
    rw [Prod.mk.injEq]
    constructor <;> ring

theorem step_finset {st : life_state} (h : SetWF st.live) :
    entries_finset (life_state_step st).live = nextGen (entries_finset st.live) := by
  obtain ⟨hW, hG⟩ := step_spec h
  ext c
  obtain ⟨a, b⟩ := c
  rw [← contains_iff_mem_finset hW a b, hG a b]
  simp only [nextGen]
  rw [Finset.mem_filter, cand_mem_iff, ← live_neighbor_count_eq_card h a b,
    ← contains_iff_mem_finset h a b]

theorem step_generation (st : life_state) :
    (life_state_step st).generation = st.generation + 1 := rfl

theorem step_SetWF {st : life_state} (h : SetWF st.live) :
    SetWF (life_state_step st).live :=
  (step_spec h).1

/-! ### Facts about clearing and pattern loading -/

theorem clear_eq_init (s : cell_set) :
    cell_set_clear s = cell_set_init s.buckets.length := rfl

theorem clear_SetWF {s : cell_set} (h : 0 < s.buckets.length) :
    SetWF (cell_set_clear s) := by
  rw [clear_eq_init]
  exact init_SetWF _ h

theorem contains_clear (s : cell_set) (x y : Int) :
    cell_set_contains (cell_set_clear s) x y = false := by
  rw [clear_eq_init]
  exact contains_init _ x y

theorem load_row_spec (cs : List Char) (s : cell_set) (h : SetWF s) (x0 y0 : Int) :
    SetWF (load_row s cs x0 y0) ∧
    ∀ a b : Int, (cell_set_contains (load_row s cs x0 y0) a b = true ↔
      (cell_set_contains s a b = true ∨
        (b = y0 ∧ ∃ i : Nat, ∃ c : Char, (row_scan cs)[i]? = some c ∧
          is_live_char c = true ∧ a = x0 + (i : Int)))) := by
  induction cs generalizing s x0 with
  | nil =>
    refine ⟨h, fun a b => ?_⟩
    rw [load_row, row_scan]
    simp
  | cons c rest ih =>
    by_cases hbr : (c == '\n' || c == '\r') = true
    · have hrow : load_row s (c :: rest) x0 y0 = s := by
        rw [load_row, if_pos hbr]
      have hscan : row_scan (c :: rest) = [] := by
        rw [row_scan, List.takeWhile_cons, if_neg (by simp [hbr])]
      refine ⟨by rw [hrow]; exact h, fun a b => ?_⟩
      rw [hrow, hscan]
      simp
    · have hs' : SetWF (if is_live_char c then cell_set_insert s x0 y0 else s) := by
        by_cases hl : is_live_char c = true
        · rw [if_pos hl]
          exact insert_SetWF h x0 y0
        · rw [if_neg hl]
          exact h
      have hrow : load_row s (c :: rest) x0 y0 =
          load_row (if is_live_char c then cell_set_insert s x0 y0 else s) rest (x0 + 1) y0 := by
        rw [load_row, if_neg hbr]
      have hscan : row_scan (c :: rest) = c :: row_scan rest := by
        unfold row_scan
        rw [List.takeWhile_cons, if_pos (by simp [Bool.not_eq_true] at hbr ⊢; exact hbr)]
      obtain ⟨ihW, ihG⟩ := ih _ hs' (x0 + 1)
      refine ⟨by rw [hrow]; exact ihW, fun a b => ?_⟩
      rw [hrow, ihG a b, hscan]
      have hs'c : cell_set_contains (if is_live_char c then cell_set_insert s x0 y0 else s) a b
          = true ↔
          (cell_set_contains s a b = true ∨
            (is_live_char c = true ∧ a = x0 ∧ b = y0)) := by
        by_cases hl : is_live_char c = true
        · rw [if_pos hl, contains_insert h x0 y0 a b]
          constructor
          · rintro (hm | ⟨h1, h2⟩)
            · exact Or.inl hm
            · exact Or.inr ⟨hl, h1, h2⟩
          · rintro (hm | ⟨_, h1, h2⟩)
            · exact Or.inl hm
            · exact Or.inr ⟨h1, h2⟩
        · rw [if_neg hl]
          constructor
          · exact Or.inl
          · rintro (hm | ⟨hl', _, _⟩)
            · exact hm
            · exact absurd hl' hl
      rw [hs'c]
      constructor
      · rintro ((hm | ⟨hlc, h1, h2⟩) | ⟨hb, i, c', hget, hlive, ha⟩)
        · exact Or.inl hm
        · refine Or.inr ⟨h2, 0, c, ?_, hlc, by rw [h1]; simp⟩
          rw [List.getElem?_cons_zero]
        · refine Or.inr ⟨hb, i + 1, c', ?_, hlive, by rw [ha]; push_cast; ring⟩
          rw [List.getElem?_cons_succ]
          exact hget
      · rintro (hm | ⟨hb, i, c', hget, hlive, ha⟩)
        · exact Or.inl (Or.inl hm)
        · cases i with
          | zero =>
            rw [List.getElem?_cons_zero] at hget
            obtain rfl : c = c' := by injection hget
            exact Or.inl (Or.inr ⟨hlive, by rw [ha]; simp, hb⟩)
          | succ i' =>
            rw [List.getElem?_cons_succ] at hget
            refine Or.inr ⟨hb, i', c', hget, hlive, by rw [ha]; push_cast; ring⟩

theorem load_lines_spec (lines : List (List Char)) (s : cell_set) (h : SetWF s)
    (y0 : Int) :
    SetWF (load_lines s lines y0) ∧
    ∀ a b : Int, (cell_set_contains (load_lines s lines y0) a b = true ↔
      (cell_set_contains s a b = true ∨
        ∃ j : Nat, ∃ row : List Char,
          (lines.filter (fun l => !is_comment l))[j]? = some row ∧ b = y0 + (j : Int) ∧
          ∃ i : Nat, ∃ c : Char, (row_scan row)[i]? = some c ∧
            is_live_char c = true ∧ a = (i : Int))) := by
  induction lines generalizing s y0 with
  | nil =>
    refine ⟨h, fun a b => ?_⟩
    rw [load_lines]
    simp
  | cons l rest ih =>
    by_cases hcm : is_comment l = true
    · have hload : load_lines s (l :: rest) y0 = load_lines s rest y0 := by
        rw [load_lines, if_pos hcm]
      have hfilt : (l :: rest).filter (fun t => !is_comment t) =
          rest.filter (fun t => !is_comment t) := by
        rw [List.filter_cons, if_neg (by simp [hcm])]
      obtain ⟨ihW, ihG⟩ := ih s h y0
      refine ⟨by rw [hload]; exact ihW, fun a b => ?_⟩
      rw [hload, hfilt]
      exact ihG a b
    · have hload : load_lines s (l :: rest) y0 =
          load_lines (load_row s l 0 y0) rest (y0 + 1) := by
        rw [load_lines, if_neg hcm]
      have hfilt : (l :: rest).filter (fun t => !is_comment t) =
          l :: rest.filter (fun t => !is_comment t) := by
        rw [List.filter_cons, if_pos (by simp [Bool.not_eq_true] at hcm ⊢; exact hcm)]
      obtain ⟨hrW, hrG⟩ := load_row_spec l s h 0 y0
      obtain ⟨ihW, ihG⟩ := ih (load_row s l 0 y0) hrW (y0 + 1)
      refine ⟨by rw [hload]; exact ihW, fun a b => ?_⟩
      rw [hload, ihG a b, hrG a b, hfilt]
      constructor
      · rintro ((hm | ⟨hb, i, c', hget, hlive, ha⟩) | ⟨j, row, hrow, hb, hrest⟩)
        · exact Or.inl hm
        · refine Or.inr ⟨0, l, ?_, by rw [hb]; simp, i, c', hget, hlive, by rw [ha]; ring⟩
          rw [List.getElem?_cons_zero]
        · refine Or.inr ⟨j + 1, row, ?_, by rw [hb]; push_cast; ring, hrest⟩
          rw [List.getElem?_cons_succ]
          exact hrow
      · rintro (hm | ⟨j, row, hrow, hb, i, c', hget, hlive, ha⟩)
        · exact Or.inl (Or.inl hm)
        · cases j with
          | zero =>
            rw [List.getElem?_cons_zero] at hrow
            obtain rfl : l = row := by injection hrow
            exact Or.inl (Or.inr ⟨by rw [hb]; simp, i, c', hget, hlive, by rw [ha]; ring⟩)
          | succ j' =>
            rw [List.getElem?_cons_succ] at hrow
            refine Or.inr ⟨j', row, hrow, by rw [hb]; push_cast; ring, i, c', hget, hlive, ha⟩

theorem mem_pattern_cells (lines : List (List Char)) (a b : Int) :
    (a, b) ∈ pattern_cells lines ↔
      ∃ j : Nat, ∃ row : List Char,
        (lines.filter (fun l => !is_comment l))[j]? = some row ∧ b = (j : Int) ∧
        ∃ i : Nat, ∃ c : Char, (row_scan row)[i]? = some c ∧
          is_live_char c = true ∧ a = (i : Int) := by
  simp only [pattern_cells]
  rw [List.mem_flatMap]
  constructor
  · rintro ⟨j, hj, hmem⟩
    rw [List.mem_range] at hj
    rw [List.mem_map] at hmem
    obtain ⟨i, hi, hpair⟩ := hmem
    obtain ⟨ha, hb⟩ := Prod.mk.inj hpair
    rw [row_live_cols, List.mem_filter, List.mem_range] at hi
    obtain ⟨hilen, hlive⟩ := hi
    refine ⟨j, (lines.filter (fun l => !is_comment l)).getD j [], ?_, hb.symm,
      i, (row_scan ((lines.filter (fun l => !is_comment l)).getD j []))[i], ?_, ?_, ha.symm⟩
    · rw [getD_eq_getElem _ _ _ hj]
      exact List.getElem?_eq_getElem hj
    · exact List.getElem?_eq_getElem hilen
    · rw [← getD_eq_getElem _ _ ' ' hilen]
      exact hlive
  · rintro ⟨j, row, hrow, hb, i, c, hget, hlive, ha⟩
    obtain ⟨hjlen, hjrow⟩ := List.getElem?_eq_some_iff.mp hrow
    obtain ⟨hilen, higet⟩ := List.getElem?_eq_some_iff.mp hget
    refine ⟨j, List.mem_range.mpr hjlen, ?_⟩
    rw [List.mem_map]
    refine ⟨i, ?_, ?_⟩
    · rw [row_live_cols, List.mem_filter, List.mem_range]
      have hdrow : (lines.filter (fun l => !is_comment l)).getD j [] = row := by
        rw [getD_eq_getElem _ _ _ hjlen]
        exact hjrow
      rw [hdrow]
      refine ⟨hilen, ?_⟩
      rw [getD_eq_getElem _ _ ' ' hilen, higet]
      exact hlive
    · rw [Prod.mk.injEq]
      have hdrow : (lines.filter (fun l => !is_comment l)).getD j [] = row := by
        rw [getD_eq_getElem _ _ _ hjlen]
        exact hjrow
      exact ⟨ha.symm, hb.symm⟩

/-! ### Facts about the viewport -/

theorem view_pan_spec (v : view_state) (dx dy : Int) :
    (view_pan v dx dy).center_x = v.center_x + dx * v.scale ∧
    (view_pan v dx dy).center_y = v.center_y + dy * v.scale ∧
    (view_pan v dx dy).scale = v.scale :=
  ⟨rfl, rfl, rfl⟩

theorem apply_op_scale {v : view_state} (hv : ∃ k : Nat, k ≤ 10 ∧ v.scale = 2 ^ k)
    (op : view_op) : ∃ k : Nat, k ≤ 10 ∧ (apply_op v op).scale = 2 ^ k := by
  obtain ⟨k, hk, hs⟩ := hv
  cases op with
  | zoom_in =>
    show ∃ k : Nat, k ≤ 10 ∧ (view_zoom_in v).scale = 2 ^ k
    rw [view_zoom_in]
    cases k with
    | zero =>
      refine ⟨0, by omega, ?_⟩
      simp only [hs]
      decide
    | succ k' =>
      refine ⟨k', by omega, ?_⟩
      simp only [hs]
      have htd : ((2:Int) ^ (k' + 1)).tdiv 2 = 2 ^ k' := by
        rw [pow_succ, mul_comm]
        exact Int.mul_tdiv_cancel_left _ (by norm_num)
      rw [htd]
      have hpos : (0:Int) < 2 ^ k' := pow_pos (by norm_num) k'
      omega
  | zoom_out =>
    show ∃ k : Nat, k ≤ 10 ∧ (view_zoom_out v).scale = 2 ^ k
    rw [view_zoom_out]
    by_cases hlt : v.scale < 1024
    · rw [if_pos hlt]
      have hk9 : k ≤ 9 := by
        by_contra hgt
        have hk10 : k = 10 := by omega
        rw [hk10] at hs
        norm_num at hs
        omega
      refine ⟨k + 1, by omega, ?_⟩
      rw [hs, pow_succ]
    · rw [if_neg hlt]
      exact ⟨k, hk, hs⟩
  | pan dx dy => exact ⟨k, hk, hs⟩
  | reset => exact ⟨0, by omega, rfl⟩

theorem apply_ops_scale (l : List view_op) (v : view_state)
    (hv : ∃ k : Nat, k ≤ 10 ∧ v.scale = 2 ^ k) :
    ∃ k : Nat, k ≤ 10 ∧ (apply_ops v l).scale = 2 ^ k := by
  induction l generalizing v with
  | nil => exact hv
  | cons op rest ih =>
    rw [apply_ops, List.foldl_cons]
    exact ih (apply_op v op) (apply_op_scale hv op)

theorem scale_bounds {v : view_state} (hv : ∃ k : Nat, k ≤ 10 ∧ v.scale = 2 ^ k) :
    1 ≤ v.scale ∧ v.scale ≤ 1024 := by
  obtain ⟨k, hk, hs⟩ := hv
  constructor
  · rw [hs]
    have hpos : (0:Int) < 2 ^ k := pow_pos (by norm_num) k
    omega
  · rw [hs]
    calc (2:Int) ^ k ≤ 2 ^ 10 := pow_le_pow_right₀ (by norm_num) hk
    _ = 1024 := by norm_num

theorem import_some_spec (st : life_state) (lines : List (List Char))
    (h : 0 < st.live.buckets.length) :
    (life_state_import_file st (some lines)).1 = 0 ∧
    (life_state_import_file st (some lines)).2.generation = 0 ∧
    SetWF (life_state_import_file st (some lines)).2.live ∧
    ∀ x y : Int,
      (cell_set_contains (life_state_import_file st (some lines)).2.live x y = true ↔
        (x, y) ∈ pattern_cells lines) := by
  have hC : SetWF (cell_set_clear st.live) := clear_SetWF h
  obtain ⟨hW, hG⟩ := load_lines_spec lines (cell_set_clear st.live) hC 0
  have hlive : (life_state_import_file st (some lines)).2.live =
      load_lines (cell_set_clear st.live) lines 0 := rfl
  refine ⟨rfl, rfl, by rw [hlive]; exact hW, ?_⟩
  intro x y
  rw [hlive, hG x y, contains_clear, mem_pattern_cells]
  simp only [Bool.false_eq_true, false_or, zero_add]

theorem import_entries_finset (st : life_state) (lines : List (List Char))
    (h : 0 < st.live.buckets.length) :
    entries_finset (life_state_import_file st (some lines)).2.live =
      (pattern_cells lines).toFinset := by
  obtain ⟨_, _, hW, hG⟩ := import_some_spec st lines h
  ext ⟨a, b⟩
  rw [← contains_iff_mem_finset hW a b, hG a b, List.mem_toFinset]

theorem entries_finset_init (cap : Nat) : entries_finset (cell_set_init cap) = ∅ := by
  rw [entries_finset, entries_init]
  rfl

theorem foldl_insert_spec (l : List (Int × Int)) (s : cell_set) (h : SetWF s) :
    SetWF (l.foldl (fun t p => cell_set_insert t p.1 p.2) s) ∧
    entries_finset (l.foldl (fun t p => cell_set_insert t p.1 p.2) s) =
      entries_finset s ∪ l.toFinset := by
  induction l generalizing s with
  | nil =>
    refine ⟨h, ?_⟩
    simp
  | cons p rest ih =>
    obtain ⟨p1, p2⟩ := p
    obtain ⟨ihW, ihG⟩ := ih (cell_set_insert s p1 p2) (insert_SetWF h p1 p2)
    refine ⟨by rw [List.foldl_cons]; exact ihW, ?_⟩
    rw [List.foldl_cons]
    show entries_finset (rest.foldl (fun t p => cell_set_insert t p.1 p.2)
      (cell_set_insert s p1 p2)) = _
    rw [ihG, entries_finset_insert h p1 p2, List.toFinset_cons]
    ext q
    simp only [Finset.mem_union, Finset.mem_insert, List.mem_toFinset]
    tauto

theorem live_neighbor_count_le_eight {s : cell_set} (h : SetWF s) (x y : Int) :
    live_neighbor_count s x y ≤ 8 := by
  rw [live_neighbor_count_eq_card h]
  have hsub : (entries_finset s).filter (fun p => is_moore_neighbor p (x, y) = true) ⊆
      (mooreOffsets.map (fun d => (x - d.1, y - d.2))).toFinset := by
    intro p hp
    rw [Finset.mem_filter] at hp
    have hd := (is_moore_neighbor_iff p (x, y)).mp hp.2
    rw [List.mem_toFinset, List.mem_map]
    obtain ⟨p1, p2⟩ := p
    refine ⟨(x - p1, y - p2), hd, ?_⟩
    rw [Prod.mk.injEq]
    constructor <;> ring
  refine le_trans (Finset.card_le_card hsub) (le_trans (List.toFinset_card_le _) ?_)
  rw [List.length_map]
  decide

theorem lnc_congr {s1 s2 : cell_set} (h1 : SetWF s1) (h2 : SetWF s2)
    (he : entries_finset s1 = entries_finset s2) (x y : Int) :
    live_neighbor_count s1 x y = live_neighbor_count s2 x y := by
  rw [live_neighbor_count_eq_card h1, live_neighbor_count_eq_card h2, he]

/-! ### The claims -/

/-- C1: for every well-formed live set, one `step()` makes a coordinate live
iff it received at least one neighbor increment (its Moore-neighbor count,
one increment per live neighbor, is at least 1) and that count is exactly 3,
or is exactly 2 with the coordinate alive in the current set; counts 0, 1,
and 4 or more leave it dead. -/
theorem C1_step_rule (st : life_state) (h : SetWF st.live) (a b : Int) :
    cell_set_contains (life_state_step st).live a b = true ↔
      (1 ≤ live_neighbor_count st.live a b ∧
        (live_neighbor_count st.live a b = 3 ∨
          (live_neighbor_count st.live a b = 2 ∧
            cell_set_contains st.live a b = true))) :=
  (step_spec h).2 a b

/-- Witness for C1 at the freshly initialised engine and coordinate (0, 0). -/
theorem C1_step_rule_witness :
    SetWF life_state_init.live ∧
    (cell_set_contains (life_state_step life_state_init).live 0 0 = true ↔
      (1 ≤ live_neighbor_count life_state_init.live 0 0 ∧
        (live_neighbor_count life_state_init.live 0 0 = 3 ∨
          (live_neighbor_count life_state_init.live 0 0 = 2 ∧
            cell_set_contains life_state_init.live 0 0 = true)))) :=
  ⟨init_SetWF 2048 (by decide),
    C1_step_rule life_state_init (init_SetWF 2048 (by decide)) 0 0⟩

/-- C2: after any sequence of inserts into an empty set of any positive
capacity, `contains` is true exactly for the inserted coordinates and
`count()` is the number of distinct inserted coordinates — independent of
capacity growth, and unchanged by repeated inserts of the same coordinate. -/
theorem C2_insert_contains_count (cap : Nat) (l : List (Int × Int)) (x y : Int)
    (h : 0 < cap) :
    (cell_set_contains (l.foldl (fun t p => cell_set_insert t p.1 p.2)
        (cell_set_init cap)) x y = true ↔ (x, y) ∈ l) ∧
    cell_set_count (l.foldl (fun t p => cell_set_insert t p.1 p.2)
        (cell_set_init cap)) = l.toFinset.card := by
  obtain ⟨hW, hG⟩ := foldl_insert_spec l (cell_set_init cap) (init_SetWF cap h)
  constructor
  · rw [contains_iff_mem_finset hW x y, hG, entries_finset_init]
    simp
  · rw [count_eq_card hW, hG, entries_finset_init]
    simp

/-- Witness for C2: capacity 2048, the sequence (0,0), (0,0), (3,4), queried
at (0, 0). -/
theorem C2_insert_contains_count_witness :
    0 < 2048 ∧
    ((cell_set_contains
        (([((0:Int), (0:Int)), (0, 0), (3, 4)] : List (Int × Int)).foldl
          (fun t p => cell_set_insert t p.1 p.2) (cell_set_init 2048)) 0 0 = true ↔
        ((0:Int), (0:Int)) ∈ ([((0:Int), (0:Int)), (0, 0), (3, 4)] : List (Int × Int))) ∧
      cell_set_count
        (([((0:Int), (0:Int)), (0, 0), (3, 4)] : List (Int × Int)).foldl
          (fun t p => cell_set_insert t p.1 p.2) (cell_set_init 2048)) =
        ([((0:Int), (0:Int)), (0, 0), (3, 4)] : List (Int × Int)).toFinset.card) :=
  ⟨by decide, C2_insert_contains_count 2048 [(0, 0), (0, 0), (3, 4)] 0 0 (by decide)⟩

/-- C3: `step()` is deterministic in the live set's contents — two engines
whose live sets hold exactly the same coordinates step to live sets holding
exactly the same coordinates, regardless of capacities or bucket order. -/
theorem C3_step_deterministic (st1 st2 : life_state)
    (h1 : SetWF st1.live) (h2 : SetWF st2.live)
    (hsame : entries_finset st1.live = entries_finset st2.live) :
    entries_finset (life_state_step st1).live =
      entries_finset (life_state_step st2).live := by
  rw [step_finset h1, step_finset h2, hsame]

/-- Witness for C3: two empty engines of different capacities (2048 and
4096). -/
theorem C3_step_deterministic_witness :
    SetWF (life_state.mk (cell_set_init 2048) 0).live ∧
    SetWF (life_state.mk (cell_set_init 4096) 5).live ∧
    entries_finset (life_state.mk (cell_set_init 2048) 0).live =
      entries_finset (life_state.mk (cell_set_init 4096) 5).live ∧
    entries_finset (life_state_step (life_state.mk (cell_set_init 2048) 0)).live =
      entries_finset (life_state_step (life_state.mk (cell_set_init 4096) 5)).live := by
  have hsame : entries_finset (life_state.mk (cell_set_init 2048) 0).live =
      entries_finset (life_state.mk (cell_set_init 4096) 5).live := by
    show entries_finset (cell_set_init 2048) = entries_finset (cell_set_init 4096)
    rw [entries_finset_init, entries_finset_init]
  exact ⟨init_SetWF 2048 (by decide), init_SetWF 4096 (by decide), hsame,
    C3_step_deterministic _ _ (init_SetWF 2048 (by decide))
      (init_SetWF 4096 (by decide)) hsame⟩

/-- C4: loading the glider pattern `.O./..O/OOO` puts exactly the five cells
(1,0), (2,1), (0,2), (1,2), (2,2) into the live set, and four `step()` calls
produce exactly that shape translated by (+1, +1). -/
theorem C4_glider_four_steps :
    entries_finset (life_state_import_file life_state_init (some gliderLines)).2.live =
      ({(1, 0), (2, 1), (0, 2), (1, 2), (2, 2)} : Finset (Int × Int)) ∧
    entries_finset (life_state_step (life_state_step (life_state_step (life_state_step
        (life_state_import_file life_state_init (some gliderLines)).2)))).live =
      ({(1, 0), (2, 1), (0, 2), (1, 2), (2, 2)} : Finset (Int × Int)).image
        (fun p => (p.1 + 1, p.2 + 1)) := by
  have hcap : 0 < life_state_init.live.buckets.length := by
    show 0 < (List.replicate 2048 ([] : List (Int × Int))).length
    rw [List.length_replicate]
    decide
  have hef := import_entries_finset life_state_init gliderLines hcap
  obtain ⟨_, _, hW0, _⟩ := import_some_spec life_state_init gliderLines hcap
  have hpc : (pattern_cells gliderLines).toFinset =
      ({(1, 0), (2, 1), (0, 2), (1, 2), (2, 2)} : Finset (Int × Int)) := by decide
  have h0 : entries_finset
      (life_state_import_file life_state_init (some gliderLines)).2.live =
      ({(1, 0), (2, 1), (0, 2), (1, 2), (2, 2)} : Finset (Int × Int)) := by
    rw [hef, hpc]
  refine ⟨h0, ?_⟩
  have hW1 := step_SetWF hW0
  have hW2 := step_SetWF hW1
  have hW3 := step_SetWF hW2
  rw [step_finset hW3, step_finset hW2, step_finset hW1, step_finset hW0, h0]
  decide

/-- C5: during a step on a well-formed live set, every entry of the neighbor
counter holds a count between 1 and 8 — each live cell increments each of its
eight distinct neighbors exactly once, and entries exist only after at least
one increment. -/
theorem C5_counter_bounds (st : life_state) (h : SetWF st.live)
    (e : Int × Int × Nat)
    (he : e ∈ (step_counts (cell_set_entries st.live)).buckets.flatten) :
    1 ≤ e.2.2 ∧ e.2.2 ≤ 8 := by
  obtain ⟨hMW, hMG⟩ := step_counts_spec (cell_set_entries st.live)
  refine ⟨hMW.pos e he, ?_⟩
  have hg := cget_of_mem hMW e he
  have hgc : count_map_get_count (step_counts (cell_set_entries st.live)) e.1 e.2.1 =
      live_neighbor_count st.live e.1 e.2.1 := hMG (e.1, e.2.1)
  rw [hgc] at hg
  rw [← hg]
  exact live_neighbor_count_le_eight h e.1 e.2.1

/-- Witness for C5: a single live cell at the origin (capacity 4 keeps the
example small); the counter entry for its neighbor (1, 1) has count 1. -/
theorem C5_counter_bounds_witness :
    SetWF (life_state.mk (cell_set_insert (cell_set_init 4) 0 0) 0).live ∧
    (((1 : Int), (1 : Int), (1 : Nat)) ∈ (step_counts (cell_set_entries
      (life_state.mk (cell_set_insert (cell_set_init 4) 0 0) 0).live)).buckets.flatten) ∧
    (1 ≤ (((1 : Int), (1 : Int), (1 : Nat)) : Int × Int × Nat).2.2 ∧
      (((1 : Int), (1 : Int), (1 : Nat)) : Int × Int × Nat).2.2 ≤ 8) := by
  have hW0 : SetWF (cell_set_init 4) := init_SetWF 4 (by decide)
  have hW : SetWF (cell_set_insert (cell_set_init 4) 0 0) := insert_SetWF hW0 0 0
  obtain ⟨_, hperm0, _⟩ := insert_spec hW0 0 0
  have hperm : (cell_set_entries (cell_set_insert (cell_set_init 4) 0 0)).Perm
      ([((0:Int), (0:Int))]) := by
    rw [entries_init] at hperm0
    rw [if_neg (List.not_mem_nil _)] at hperm0
    exact hperm0
  obtain ⟨hMW, hMG⟩ := step_counts_spec
    (cell_set_entries (cell_set_insert (cell_set_init 4) 0 0))
  have hlnc : live_neighbor_count (cell_set_insert (cell_set_init 4) 0 0) 1 1 = 1 := by
    rw [live_neighbor_count, hperm.countP_eq]
    decide
  have hget : count_map_get_count (step_counts (cell_set_entries
      (cell_set_insert (cell_set_init 4) 0 0))) 1 1 = 1 := by
    have h11 := hMG ((1 : Int), (1 : Int))
    rw [h11]
    exact hlnc
  have hmem := mem_of_cget_pos (step_counts (cell_set_entries
    (cell_set_insert (cell_set_init 4) 0 0))) 1 1 (by rw [hget])
  rw [hget] at hmem
  exact ⟨hW, hmem,
    C5_counter_bounds (life_state.mk (cell_set_insert (cell_set_init 4) 0 0) 0)
      hW ((1 : Int), (1 : Int), (1 : Nat)) hmem⟩

theorem init_cap_pos : 0 < life_state_init.live.buckets.length := by
  show 0 < (List.replicate 2048 ([] : List (Int × Int))).length
  rw [List.length_replicate]
  decide

/-- C6 counterexample: load the one-cell pattern `O`, then attempt a load
from an unreadable source.  The failed load reports `-1`, yet the engine is
NOT left in its cleared state: cell (0, 0) is still alive — refuting the
claim for engines whose live set is non-empty. -/
theorem C6_failed_load_counterexample :
    (life_state_import_file
      (life_state_import_file life_state_init (some [['O']])).2 none).1 = -1 ∧
    cell_set_contains
      (life_state_import_file
        (life_state_import_file life_state_init (some [['O']])).2 none).2.live 0 0
      = true := by
  refine ⟨rfl, ?_⟩
  show cell_set_contains
    (life_state_import_file life_state_init (some [['O']])).2.live 0 0 = true
  obtain ⟨_, _, _, hG⟩ := import_some_spec life_state_init [['O']] init_cap_pos
  rw [hG 0 0]
  decide

/-- C6 (amended): a load from an unreadable or missing source reports failure
(`-1`) to the caller and leaves the engine exactly unchanged — in particular
an already-clear engine remains clear and usable. -/
theorem C6_failed_load_unchanged (st : life_state) :
    (life_state_import_file st none).1 = -1 ∧
    (life_state_import_file st none).2 = st :=
  ⟨rfl, rfl⟩

/-- C7 counterexample: in the line `O\rO` the character at 0-based column 2
is the live marker `O` and the line is not a comment, yet the loader does not
insert a cell at (2, 0) — the scan stops at the carriage return, refuting
"every character O, o, X, 1 at column x inserts a live cell at (x, y)". -/
theorem C7_loader_counterexample :
    is_comment ['O', '\r', 'O'] = false ∧
    (['O', '\r', 'O'] : List Char)[2]? = some 'O' ∧
    is_live_char 'O' = true ∧
    cell_set_contains (load_lines (cell_set_init 2048) [['O', '\r', 'O']] 0) 2 0
      = false := by
  refine ⟨by decide, by decide, by decide, ?_⟩
  obtain ⟨_, hG⟩ := load_lines_spec [['O', '\r', 'O']] (cell_set_init 2048)
    (init_SetWF 2048 (by decide)) 0
  rw [← Bool.not_eq_true]
  intro hc
  rcases (hG 2 0).mp hc with hm | ⟨j, row, hrow, _, i, c, hget, hlive, ha⟩
  · rw [contains_init] at hm
    exact Bool.false_ne_true hm
  · have hfilt : ([['O', '\r', 'O']] : List (List Char)).filter
        (fun l => !is_comment l) = [['O', '\r', 'O']] := by decide
    rw [hfilt] at hrow
    cases j with
    | zero =>
      rw [List.getElem?_cons_zero] at hrow
      obtain rfl : (['O', '\r', 'O'] : List Char) = row := by injection hrow
      have hscan : row_scan ['O', '\r', 'O'] = ['O'] := by decide
      rw [hscan] at hget
      cases i with
      | zero => norm_num at ha
      | succ i' =>
        rw [List.getElem?_cons_succ] at hget
        simp at hget
    | succ j' =>
      rw [List.getElem?_cons_succ] at hrow
      simp at hrow

/-- C7 (amended): for every line-oriented pattern text, comment lines
(first character `!` or `#`) are skipped without consuming a row index,
every other line receives the next sequential row index starting at 0, and
within a line the characters scanned — those BEFORE the first `\n` or `\r` —
insert a live cell at (column, row) exactly when they are `O`, `o`, `X`, or
`1`; `pattern_cells` realises exactly this description. -/
theorem C7_loader_rows_cols (lines : List (List Char)) (s : cell_set)
    (x y : Int) (h : SetWF s) :
    cell_set_contains (load_lines s lines 0) x y = true ↔
      (cell_set_contains s x y = true ∨ (x, y) ∈ pattern_cells lines) := by
  obtain ⟨_, hG⟩ := load_lines_spec lines s h 0
  rw [hG x y, mem_pattern_cells]
  simp only [zero_add]

/-- Witness for C7 at a clear 2048-capacity set and the text `#` / `O`. -/
theorem C7_loader_rows_cols_witness :
    SetWF (cell_set_init 2048) ∧
    (cell_set_contains (load_lines (cell_set_init 2048) [['#'], ['O']] 0) 0 0 = true ↔
      (cell_set_contains (cell_set_init 2048) 0 0 = true ∨
        ((0 : Int), (0 : Int)) ∈ pattern_cells [['#'], ['O']])) :=
  ⟨init_SetWF 2048 (by decide),
    C7_loader_rows_cols [['#'], ['O']] (cell_set_init 2048) 0 0
      (init_SetWF 2048 (by decide))⟩

/-- C8: starting from scale 1, every sequence of zoom, pan, and reset
commands keeps the scale an integer in [1, 1024]; eleven zoom-outs from
scale 1 saturate at 1024 (ten already reach it), and from 1024 ten zoom-ins
reach scale 1 with further zoom-ins staying at 1. -/
theorem C8_scale_clamped :
    (∀ (cx cy : Int) (l : List view_op),
      1 ≤ (apply_ops ⟨cx, cy, 1⟩ l).scale ∧ (apply_ops ⟨cx, cy, 1⟩ l).scale ≤ 1024) ∧
    (apply_ops view_init (List.replicate 10 view_op.zoom_out)).scale = 1024 ∧
    (apply_ops view_init (List.replicate 11 view_op.zoom_out)).scale = 1024 ∧
    (apply_ops view_init (List.replicate 10 view_op.zoom_out ++
      List.replicate 10 view_op.zoom_in)).scale = 1 ∧
    (apply_ops view_init (List.replicate 10 view_op.zoom_out ++
      List.replicate 11 view_op.zoom_in)).scale = 1 := by
  refine ⟨?_, by decide, by decide, by decide, by decide⟩
  intro cx cy l
  exact scale_bounds (apply_ops_scale l ⟨cx, cy, 1⟩ ⟨0, by omega, by norm_num⟩)

/-- C9: for every viewport state and all integers dx, dy, `pan(dx, dy)` adds
exactly dx·scale to center_x and dy·scale to center_y and leaves the scale
unchanged; in particular at scale 4, pan(1, 0) moves center_x by 4. -/
theorem C9_pan_adds_scaled :
    (∀ (v : view_state) (dx dy : Int),
      (view_pan v dx dy).center_x = v.center_x + dx * v.scale ∧
      (view_pan v dx dy).center_y = v.center_y + dy * v.scale ∧
      (view_pan v dx dy).scale = v.scale) ∧
    (view_pan ⟨0, 0, 4⟩ 1 0).center_x = 4 :=
  ⟨fun v dx dy => ⟨rfl, rfl, rfl⟩, by decide⟩

/-- C10: a load from a readable source succeeds (returns 0), resets the
generation counter to 0, and leaves the live set holding exactly the
pattern's cells — all previously live cells are discarded, no matter how
many generations had run. -/
theorem C10_load_resets (st : life_state) (lines : List (List Char))
    (x y : Int) (h : 0 < st.live.buckets.length) :
    (life_state_import_file st (some lines)).1 = 0 ∧
    (life_state_import_file st (some lines)).2.generation = 0 ∧
    (cell_set_contains (life_state_import_file st (some lines)).2.live x y = true ↔
      (x, y) ∈ pattern_cells lines) := by
  obtain ⟨h1, h2, _, h4⟩ := import_some_spec st lines h
  exact ⟨h1, h2, h4 x y⟩

/-- Witness for C10: reload the one-line pattern `O` over an engine that has
already loaded a glider and stepped once (generation 1, cells present). -/
theorem C10_load_resets_witness :
    0 < (life_state_step
      (life_state_import_file life_state_init (some gliderLines)).2).live.buckets.length ∧
    ((life_state_import_file (life_state_step
        (life_state_import_file life_state_init (some gliderLines)).2)
        (some [['O']])).1 = 0 ∧
      (life_state_import_file (life_state_step
        (life_state_import_file life_state_init (some gliderLines)).2)
        (some [['O']])).2.generation = 0 ∧
      (cell_set_contains (life_state_import_file (life_state_step
          (life_state_import_file life_state_init (some gliderLines)).2)
          (some [['O']])).2.live 0 0 = true ↔
        ((0 : Int), (0 : Int)) ∈ pattern_cells [['O']])) := by
  obtain ⟨_, _, hW, _⟩ := import_some_spec life_state_init gliderLines init_cap_pos
  have hcap : 0 < (life_state_step
      (life_state_import_file life_state_init (some gliderLines)).2).live.buckets.length :=
    (step_SetWF hW).cap_pos
  exact ⟨hcap, C10_load_resets _ [['O']] 0 0 hcap⟩
